import Mathlib

/-!
Verification of the urkel-rs base-2 Merkle trie against its specification.

The development shallowly embeds the Rust sources: pure functions become Lean
functions on `Nat`-valued byte lists, the append-only store becomes explicit
state passing over a `Store` structure, loops become fueled recursions where
`none` models a Rust panic or divergence, and fallible code returns `Option`.
The hash primitive (tiny_keccak's SHA3-256) is embedded concretely so that
every statement is executable.
-/

set_option maxRecDepth 4000

/-! ### SHA3-256 (tiny_keccak `Keccak::new_sha3_256`), over byte lists -/

/-- 64-bit left rotation on `Nat` values below `2 ^ 64`. -/
def rotl64 (x n : Nat) : Nat :=
  ((x <<< n) ||| (x >>> (64 - n))) % 18446744073709551616

/-- 64-bit bitwise complement. -/
def not64 (x : Nat) : Nat := x ^^^ 18446744073709551615

/-- Keccak-f[1600] round constants (FIPS 202), written in decimal. -/
def keccakRC : List Nat :=
  [1, 32898, 9223372036854808714,
   9223372039002292224, 32907, 2147483649,
   9223372039002292353, 9223372036854808585, 138,
   136, 2147516425, 2147483658,
   2147516555, 9223372036854775947, 9223372036854808713,
   9223372036854808579, 9223372036854808578, 9223372036854775936,
   32778, 9223372039002259466, 9223372039002292353,
   9223372036854808704, 2147483649, 9223372039002292232]

/-- Keccak rho rotation offsets, row `y` holding the lanes `(0..4, y)`. -/
def keccakRotc : List (List Nat) :=
  [[0, 1, 62, 28, 27],
   [36, 44, 6, 55, 20],
   [3, 10, 43, 25, 39],
   [41, 45, 15, 21, 8],
   [18, 2, 61, 56, 14]]

/-- One Keccak-f round (theta, rho, pi, chi, iota) on 25 lanes. -/
def keccakRound (A : List Nat) (rc : Nat) : List Nat :=
  let C := (List.range 5).map fun x =>
    (((A.getD x 0 ^^^ A.getD (x + 5) 0) ^^^ A.getD (x + 10) 0) ^^^
        A.getD (x + 15) 0) ^^^ A.getD (x + 20) 0
  let D := (List.range 5).map fun x =>
    C.getD ((x + 4) % 5) 0 ^^^ rotl64 (C.getD ((x + 1) % 5) 0) 1
  let A1 := (List.range 25).map fun j => A.getD j 0 ^^^ D.getD (j % 5) 0
  let B := (List.range 25).map fun j =>
    let src := (j % 5 + 3 * (j / 5)) % 5 + 5 * (j % 5)
    rotl64 (A1.getD src 0) ((keccakRotc.getD (src / 5) []).getD (src % 5) 0)
  let A2 := (List.range 25).map fun j =>
    let x := j % 5
    let y := j / 5
    B.getD j 0 ^^^ (not64 (B.getD ((x + 1) % 5 + 5 * y) 0) &&& B.getD ((x + 2) % 5 + 5 * y) 0)
  match A2 with
  | a0 :: rest => (a0 ^^^ rc) :: rest
  | [] => []

/-- The full 24-round Keccak-f[1600] permutation. -/
def keccakF (A : List Nat) : List Nat := keccakRC.foldl keccakRound A

/-- SHA3 padding (domain byte `0x06`, final bit `0x80`), rate 136 bytes. -/
def sha3Pad (msg : List Nat) : List Nat :=
  let padLen := 136 - msg.length % 136
  if padLen = 1 then msg ++ [0x86]
  else msg ++ [0x06] ++ List.replicate (padLen - 2) 0 ++ [0x80]

/-- Interpret up to 8 bytes as a little-endian 64-bit lane. -/
def bytesToLane (bs : List Nat) : Nat :=
  bs.foldr (fun b acc => acc * 256 + b) 0

/-- Split one 136-byte rate block into its 17 lanes. -/
def blockLanes (block : List Nat) : List Nat :=
  (List.range 17).map fun i => bytesToLane ((block.drop (8 * i)).take 8)

/-- Absorb the padded message block by block; `fuel` bounds the number of blocks. -/
def absorb (fuel : Nat) (st : List Nat) (padded : List Nat) : List Nat :=
  match fuel, padded with
  | _, [] => st
  | 0, _ => st
  | f + 1, rest =>
      let lanes := blockLanes (rest.take 136)
      let st' := (List.range 25).map fun i => st.getD i 0 ^^^ lanes.getD i 0
      absorb f (keccakF st') (rest.drop 136)

/-- The 8 little-endian bytes of a 64-bit lane. -/
def laneBytes (lane : Nat) : List Nat :=
  (List.range 8).map fun i => (lane >>> (8 * i)) &&& 255

/-- SHA3-256 of a byte sequence, as the repo's `hashutils::sha3`. -/
def sha3 (msg : List Nat) : List Nat :=
  let padded := sha3Pad msg
  let st := absorb (padded.length) (List.replicate 25 0) padded
  laneBytes (st.getD 0 0) ++ laneBytes (st.getD 1 0) ++
    laneBytes (st.getD 2 0) ++ laneBytes (st.getD 3 0)

/-- A sha3 digest always has 32 bytes. -/
theorem sha3_length (msg : List Nat) : (sha3 msg).length = 32 := by
  simp [sha3, laneBytes]

/-- The embedded hash agrees with the repository's own pinned test vector
(`santity_check` in tests/lib.rs: `sha3(b"Helloworld")`). -/
theorem sha3_matches_repo_test_vector :
    sha3 [72, 101, 108, 108, 111, 119, 111, 114, 108, 100] =
      [172, 24, 36, 212, 68, 62, 233, 168, 252, 183, 2, 111, 27, 71, 81, 182,
       14, 12, 113, 106, 210, 215, 234, 175, 139, 118, 178, 196, 71, 7, 230, 174] := by
  decide

/-! ### Byte-level helpers (byteorder little-endian reads and writes) -/

/-- Little-endian write of a `u16` value (2 bytes). -/
def writeU16 (n : Nat) : List Nat := [n % 256, n / 256 % 256]

/-- Little-endian write of a `u32` value (4 bytes). -/
def writeU32 (n : Nat) : List Nat :=
  [n % 256, n / 256 % 256, n / 65536 % 256, n / 16777216 % 256]

/-- Little-endian read of a `u16` from the head of a byte list. -/
def readU16 : List Nat → Nat
  | b0 :: b1 :: _ => b0 + 256 * b1
  | [b0] => b0
  | [] => 0

/-- Little-endian read of a `u32` from the head of a byte list. -/
def readU32 : List Nat → Nat
  | b0 :: b1 :: b2 :: b3 :: _ => b0 + 256 * b1 + 65536 * b2 + 16777216 * b3
  | b0 :: b1 :: b2 :: [] => b0 + 256 * b1 + 65536 * b2
  | b0 :: b1 :: [] => b0 + 256 * b1
  | [b0] => b0
  | [] => 0

/-! ### hashutils.rs -/

/-- The all-zero digest (`Digest::default()`), the sentinel for empty subtrees. -/
def zeroDigest : List Nat := List.replicate 32 0

/-- `hashutils::sha3_leaf`: hash of `0x00 ++ key ++ value`. -/
def sha3_leaf (key value : List Nat) : List Nat := sha3 (0 :: (key ++ value))

/-- `hashutils::sha3_value`: hash of `0x00 ++ key ++ sha3(value)`. -/
def sha3_value (key value : List Nat) : List Nat := sha3 (0 :: (key ++ sha3 value))

/-- `hashutils::sha3_internal`: hash of `0x01 ++ left ++ right`. -/
def sha3_internal (left right : List Nat) : List Nat := sha3 (1 :: (left ++ right))

/-- `hashutils::checksum`: hash of `data ++ meta_key` (full 32 bytes; callers chop to 20). -/
def checksum (data meta_key : List Nat) : List Nat := sha3 (data ++ meta_key)

/-- Modelled from the spec: `sha3_zero_hash` is imported by proof.rs but missing from
src/; §4.A defines `H_zero` as the all-zero digest (Empty). -/
def sha3_zero_hash : List Nat := zeroDigest

/-- Modelled from the spec: `has_bit` is imported by tree.rs and proof.rs but defined
nowhere under src/; §4.F says descent is bit-by-bit on the 256-bit key with
"bit 0 is the MSB of byte 0". -/
def has_bit (key : List Nat) (depth : Nat) : Bool :=
  (key.getD (depth / 8) 0 >>> (7 - depth % 8)) &&& 1 == 1

/-! ### nodes.rs: the `Node` model -/

/-- The four node shapes of nodes.rs. Machine-integer fields (`u16` indexes,
`u32` positions) are carried as `Nat`; wrap-around is applied at the arithmetic
that the source performs on them. -/
inductive Node where
  | empty : Node
  | hashn (pos : Nat) (index : Nat) (hash : List Nat) : Node
  | leaf (pos : Nat) (index : Nat) (hash : List Nat) (key : List Nat)
      (value : Option (List Nat)) (vindex : Nat) (vpos : Nat) (vsize : Nat) : Node
  | internal (pos : Nat) (index : Nat) (hash : List Nat) (left : Node) (right : Node) : Node
deriving DecidableEq

namespace Node

/-- `Node::is_leaf`: leaves, and hash nodes whose tagged `pos` has low bit 1. -/
def is_leaf : Node → Bool
  | .leaf .. => true
  | .hashn pos _ _ => pos % 2 == 1
  | _ => false

/-- `Node::should_save`: an internal node is dirty iff its `index` is 0. -/
def should_save : Node → Bool
  | .internal _ index _ _ _ => index == 0
  | _ => false

/-- `Node::index_and_position`. -/
def index_and_position : Node → Nat × Nat
  | .leaf pos index .. => (index, pos)
  | .internal pos index _ _ _ => (index, pos)
  | .hashn pos index _ => (index, pos)
  | .empty => (0, 0)

/-- `Node::hash`: zero for Empty, the stored hash for Hash and Leaf nodes, and a
recomputation from the children for Internal nodes. -/
def hashOf : Node → List Nat
  | .empty => zeroDigest
  | .hashn _ _ h => h
  | .leaf _ _ h .. => h
  | .internal _ _ _ l r => sha3_internal (hashOf l) (hashOf r)

/-- `Node::leaf(key, value)`: the smart constructor used by insert for the
displaced leaf. It zeroes `pos`, `index`, the stored `hash`, and the whole
value locator. -/
def mkLeaf (key : List Nat) (value : Option (List Nat)) : Node :=
  .leaf 0 0 zeroDigest key value 0 0 0

/-- `Node::encode`. `none` models the `unimplemented!()` arms and the
`"Leaf has no value!"` assertion. The `u16` values are wrapped by `writeU16`. -/
def encode : Node → Option (List Nat)
  | .internal _ _ _ l r =>
      let lp := l.index_and_position
      let rp := r.index_and_position
      some (writeU16 (lp.1 * 2) ++ writeU32 lp.2 ++ l.hashOf ++
            writeU16 rp.1 ++ writeU32 rp.2 ++ r.hashOf)
  | .leaf _ _ _ key value vindex vpos _ =>
      match value with
      | none => none
      | some v =>
          some (writeU16 (vindex * 2 + 1) ++ writeU32 vpos ++ writeU16 v.length ++ key)
  | _ => none

/-- `Node::decode`. `none` models the length and parity assertions
(`"Database is corrupt!"`). -/
def decode (bits : List Nat) (leaf : Bool) : Option Node :=
  match leaf with
  | true =>
    if bits.length ≠ 40 then none
    else
      let k := bits.drop 8
      let vindexRaw := readU16 bits
      if vindexRaw % 2 ≠ 1 then none
      else if k.length ≠ 32 then none
      else some (.leaf 0 0 zeroDigest k none (vindexRaw / 2) (readU32 (bits.drop 2))
                  (readU16 (bits.drop 6)))
  | false =>
    if bits.length ≠ 76 then none
    else
      let leftRaw := readU16 bits
      if leftRaw % 2 ≠ 0 then none
      else
        let li := leftRaw / 2
        let leftnode : Node :=
          if li ≠ 0 then .hashn (readU32 (bits.drop 2)) li ((bits.drop 6).take 32)
          else .empty
        let ri := readU16 (bits.drop 38)
        let rightnode : Node :=
          if ri ≠ 0 then .hashn (readU32 (bits.drop 40)) ri ((bits.drop 44).take 32)
          else .empty
        some (.internal 0 0 zeroDigest leftnode rightnode)

end Node

/-- Is `x` a subterm of `t` (used to speak about the rebuilt tree's contents)? -/
def containsNode (t x : Node) : Bool :=
  if t = x then true
  else match t with
       | .internal _ _ _ l r => containsNode l x || containsNode r x
       | _ => false

/-! ### metadata.rs: the commit meta-record -/

/-- `META_MAGIC = 0x6d72_6b6c`. -/
def META_MAGIC : Nat := 1836215148

/-- The meta entry of metadata.rs / store.rs (`u16`/`u32` fields as `Nat`). -/
structure MetaEntry where
  meta_index : Nat
  meta_pos : Nat
  root_index : Nat
  root_pos : Nat
  root_leaf : Bool
deriving DecidableEq

/-- The all-zero `MetaEntry` (its `Default` impl). -/
def MetaEntry.default0 : MetaEntry := ⟨0, 0, 0, 0, false⟩

/-- `MetaEntry::encode`: padding zeros up to the next `META_SIZE` boundary, a
16-byte header, then the first 20 bytes of the keyed checksum of the header.
The `u32` tagged root position wraps. -/
def MetaEntry.encode (m : MetaEntry) (buffer_pos : Nat) (meta_key : List Nat) : List Nat :=
  let padding := 36 - buffer_pos % 36
  let flag := if m.root_leaf then 1 else 0
  let header := writeU32 META_MAGIC ++ writeU16 m.meta_index ++ writeU32 m.meta_pos ++
    writeU16 m.root_index ++ writeU32 ((m.root_pos * 2 + flag) % 4294967296)
  List.replicate padding 0 ++ header ++ (checksum header meta_key).take 20

/-- `MetaEntry::decode`: `none` models the slice panics, the magic panic and the
checksum panic. -/
def MetaEntry.decode (bits : List Nat) (meta_key : List Nat) : Option MetaEntry :=
  if bits.length < 36 then none
  else if readU32 bits ≠ META_MAGIC then none
  else if (checksum (bits.take 16) meta_key).take 20 ≠ (bits.drop 16).take 20 then none
  else
    let rp := readU32 (bits.drop 12)
    some ⟨readU16 (bits.drop 4), readU32 (bits.drop 6), readU16 (bits.drop 10),
          rp / 2, rp % 2 == 1⟩

/-! ### store.rs: the append-only store

Files are modelled as a map from file index to optional contents (`none` means
the file does not exist). The write path keeps the in-memory `buffer`, the
active file `index` and the logical `pos` exactly as the source does. -/

structure Store where
  buffer : List Nat
  index : Nat
  pos : Nat
  files : Nat → Option (List Nat)
  key : List Nat
  state : MetaEntry

namespace Store

/-- `Store::read`: `none` models the missing-file panic (`"Couldn't find file"`);
`some none` models a propagated I/O error (short read). -/
def read (st : Store) (index pos size : Nat) : Option (Option (List Nat)) :=
  match st.files index with
  | none => none
  | some content =>
      if pos + size ≤ content.length then some (some ((content.drop pos).take size))
      else some none

/-- `Store::resolve`: read the record at the untagged position and decode it.
Any failure collapses to `none` (every caller in tree.rs `.expect`s it). -/
def resolve (st : Store) (index pos : Nat) (leaf : Bool) : Option Node :=
  match st.read index (pos / 2) (if leaf then 40 else 76) with
  | some (some bits) => Node.decode bits leaf
  | _ => none

/-- `Store::retrieve`: read `vsize` bytes of value at the locator. -/
def retrieve (st : Store) (vindex vpos vsize : Nat) : Option (Option (List Nat)) :=
  st.read vindex vpos vsize

/-- `Store::write_bytes`: append to the buffer and advance `pos`. -/
def write_bytes (st : Store) (bits : List Nat) : Store :=
  { st with buffer := st.buffer ++ bits, pos := st.pos + bits.length }

/-- `Store::write_node`: encode the node, stamp its `(index, pos)` with the
leaf tag in the low bit of `pos`, and append the record to the buffer. -/
def write_node (st : Store) (node : Node) : Option (Store × Node) :=
  match node.encode with
  | none => none
  | some bits =>
      match node with
      | .internal _ _ h l r =>
          some (st.write_bytes bits, .internal (st.pos * 2) st.index h l r)
      | .leaf _ _ h k v vi vp vs =>
          some (st.write_bytes bits, .leaf (st.pos * 2 + 1) st.index h k v vi vp vs)
      | _ => none

/-- `Store::write_value`: for a leaf with an in-memory value, append the value
bytes and update the leaf's locator; a leaf without a value is left unchanged
(`value.map` does nothing). Non-leaf nodes hit the assert / `unimplemented!()`. -/
def write_value (st : Store) (node : Node) : Option (Store × Node) :=
  match node with
  | .leaf p i h k value _ _ _ =>
      match value with
      | some v =>
          some (st.write_bytes v, .leaf p i h k (some v) st.index st.pos (v.length % 65536))
      | none => some (st, node)
  | _ => none

/-- `Store::commit` (store.rs, lines 179-203): if a root is supplied, update the
in-memory meta state from it and append the encoded meta-record to the buffer;
then flush the buffer to the active file (created on demand by the append-only
handle), clear the buffer, and set `pos` to zero. -/
def commit (st : Store) (root_node : Option Node) : Store :=
  let withMeta : Store :=
    match root_node with
    | some n =>
        let ip := n.index_and_position
        let state' : MetaEntry :=
          { st.state with root_index := ip.1, root_pos := ip.2, root_leaf := n.is_leaf }
        let bits := state'.encode (st.pos % 4294967296) st.key
        { (st.write_bytes bits) with state := state' }
    | none => st
  { withMeta with
      buffer := [],
      pos := 0,
      files := fun i =>
        if i = st.index then some ((st.files i).getD [] ++ withMeta.buffer)
        else st.files i }

end Store

/-! ### proof.rs -/

inductive PType where
  | exist
  | collision
  | deadend
deriving DecidableEq

/-- The proof object of proof.rs. -/
structure UProof where
  proof_type : PType
  node_hashes : List (List Nat)
  key : Option (List Nat)
  hash : Option (List Nat)
  value : Option (List Nat)
deriving DecidableEq

/-- `Proof::new` (used as `Proof::default()` in tree.rs, whose `Default` impl is
not in src/): the empty Deadend proof. -/
def UProof.new : UProof := ⟨.deadend, [], none, none, none⟩

/-- `Proof::is_sane`, with its exact per-type if-chains; note the source returns
`false` for every Deadend proof. -/
def UProof.is_sane (p : UProof) (bits : Nat) : Bool :=
  match p.proof_type with
  | .exist =>
      p.key.isNone && p.hash.isNone && p.value.isSome &&
        decide ((p.value.getD []).length ≤ 65535)
  | .collision =>
      p.key.isSome && p.hash.isSome && p.value.isNone &&
        decide ((p.key.getD []).length = bits / 8) && decide ((p.hash.getD []).length = 32)
  | .deadend => false

/-- The result type of `Proof::verify` (`Result<Vec<u8>, &'static str>`). -/
inductive VerifyResult where
  | ok (v : List Nat)
  | err (e : String)
deriving DecidableEq

/-- The witness fold of `Proof::verify`, verbatim: consume the reversed witness
list, combining by `has_bit key depth`, decrementing `depth` with a clamp at 0. -/
def verifyFold (key : List Nat) : List (List Nat) → List Nat → Nat → List Nat
  | [], next, _ => next
  | w :: rest, next, depth =>
      verifyFold key rest
        (if has_bit key depth then sha3_internal w next else sha3_internal next w)
        (if 0 < depth then depth - 1 else depth)

/-- `Proof::verify`. The outer `none` models the panic from the unsigned
underflow of `self.depth() - 1` when the witness list is empty (`usize`
subtraction; in release mode the wrapped depth then indexes the key out of
bounds inside `has_bit`). The two `zeroDigest` placeholder arms are
unreachable because `is_sane` has already accepted the proof. -/
def UProof.verify (p : UProof) (root_hash key : List Nat) (bits : Nat) :
    Option VerifyResult :=
  if ¬ p.is_sane bits then some (.err "Unknown")
  else
    let leafIn : VerifyResult :=
      match p.proof_type with
      | .deadend => .ok sha3_zero_hash
      | .collision =>
          if p.key = some key then .err "Same Key"
          else
            match p.key, p.hash with
            | some k, some h => .ok (sha3_leaf k h)
            | _, _ => .ok zeroDigest
      | .exist =>
          match p.value with
          | some v => .ok (sha3_value key v)
          | none => .ok zeroDigest
    match leafIn with
    | .err e => some (.err e)
    | .ok leafh =>
        if p.node_hashes = [] then none
        else
          let next := verifyFold key p.node_hashes.reverse leafh (p.node_hashes.length - 1)
          if next ≠ root_hash then some (.err "Head Mismatch")
          else
            match p.value with
            | some v => some (.ok v)
            | none => some (.err "Bad Verification")

/-! ### tree.rs: the trie engine

The tree's `keysize` is fixed at 256 by `UrkelTree::new`. Each Rust loop is
split into a structural descent over the in-memory node (which can stop at a
hash node) and a fueled outer loop that resolves hash nodes from the store;
`none` throughout models a panic or divergence of the source loop.

The `to_hash` stack is modelled with its top at the head of the list, so the
source's `to_hash.into_iter().rev()` is plain head-first iteration here. -/

/-- The `while has_bit(&nkey, depth) == has_bit(&key, depth)` skip loop of
insert: count the agreeing bits from `depth` on. `none` means the loop never
exits (for byte-valued 32-byte keys this cannot happen below the fuel used). -/
def skipCount (nkey okey : List Nat) : Nat → Nat → Option Nat
  | 0, _ => none
  | f + 1, depth =>
      if has_bit nkey depth == has_bit okey depth then
        (skipCount nkey okey f (depth + 1)).map (· + 1)
      else some 0

/-- Outcome of the insert descent over the in-memory part of the tree. -/
inductive IStep where
  | noop (r : Node)
  | broke (depth : Nat) (to_hash : List Node)
  | hashHit (index pos : Nat) (lf : Bool) (depth : Nat) (to_hash : List Node)
  | fail

/-- The insert descent of `UrkelTree::insert`, structurally over the node.
`lh` is the precomputed `sha3_value nkey value`. -/
def insertDescend (nkey lh : List Nat) : Node → Nat → List Node → IStep
  | .empty, depth, acc => .broke depth acc
  | .hashn pos index _, depth, acc => .hashHit index pos (pos % 2 == 1) depth acc
  | .leaf p i h key value vi vp vs, depth, acc =>
      if nkey = key then
        if lh = h then .noop (.leaf p i h key value vi vp vs)
        else .broke depth acc
      else
        match skipCount nkey key (8 * max nkey.length key.length + 1) depth with
        | none => .fail
        | some c =>
            .broke (depth + c + 1) (Node.mkLeaf key value :: (List.replicate c .empty ++ acc))
  | .internal _ _ _ l r, depth, acc =>
      if depth = 256 then .fail
      else if has_bit nkey depth then insertDescend nkey lh r (depth + 1) (l :: acc)
      else insertDescend nkey lh l (depth + 1) (r :: acc)

/-- The insert loop: resolve hash nodes from the store until the descent stops.
The result is either the no-op node (`inl`) or the break state (`inr`). -/
def insertLoop (st : Store) (nkey lh : List Nat) :
    Nat → Node → Nat → List Node → Option (Node ⊕ (Nat × List Node))
  | fuel, n, depth, acc =>
      match insertDescend nkey lh n depth acc with
      | .noop r => some (.inl r)
      | .broke d th => some (.inr (d, th))
      | .fail => none
      | .hashHit index pos lf d th =>
          match fuel with
          | 0 => none
          | f + 1 => (st.resolve index pos lf).bind fun n' => insertLoop st nkey lh f n' d th

/-- The bottom-up rebuild of `UrkelTree::insert`: pop the stack deepest-first,
wrapping the node built so far on the side selected by `has_bit nkey (depth-1)`. -/
def rebuild (nkey : List Nat) : List Node → Node → Nat → Node
  | [], newRoot, _ => newRoot
  | n :: rest, newRoot, depth =>
      if has_bit nkey (depth - 1) then
        rebuild nkey rest (.internal 0 0 zeroDigest n newRoot) (depth - 1)
      else
        rebuild nkey rest (.internal 0 0 zeroDigest newRoot n) (depth - 1)

/-- `UrkelTree::insert` on a root node: `none` models a panic (failed resolve,
depth overflow, or a diverging skip loop). -/
def treeInsert (fuel : Nat) (st : Store) (root : Node) (nkey value : List Nat) :
    Option Node :=
  (insertLoop st nkey (sha3_value nkey value) fuel root 0 []).map fun
    | .inl r => r
    | .inr (d, th) =>
        rebuild nkey th (.leaf 0 0 (sha3_value nkey value) nkey (some value) 0 0 0) d

/-- Outcome of the get descent over the in-memory part of the tree. -/
inductive GStep where
  | found (v : List Nat)
  | retr (vindex vpos vsize : Nat)
  | notFound
  | hashHit (index pos : Nat) (lf : Bool) (depth : Nat)

/-- The get descent of `UrkelTree::get` (no depth check in the source). -/
def getDescend (nkey : List Nat) : Node → Nat → GStep
  | .leaf _ _ _ key value vi vp vs, _ =>
      if nkey ≠ key then .notFound
      else
        match value with
        | some v => .found v
        | none => .retr vi vp vs
  | .internal _ _ _ l r, depth =>
      if has_bit nkey depth then getDescend nkey r (depth + 1)
      else getDescend nkey l (depth + 1)
  | .hashn pos index _, depth => .hashHit index pos (pos % 2 == 1) depth
  | .empty, _ => .notFound

/-- The get loop. A retrieve I/O error returns "not found" (`some none`) as in
the source's `match ... _ => return None`; a missing value file panics. -/
def getLoop (st : Store) (nkey : List Nat) :
    Nat → Node → Nat → Option (Option (List Nat))
  | fuel, n, depth =>
      match getDescend nkey n depth with
      | .found v => some (some v)
      | .notFound => some none
      | .retr vi vp vs =>
          match st.retrieve vi vp vs with
          | none => none
          | some none => some none
          | some (some v) => some (some v)
      | .hashHit index pos lf d =>
          match fuel with
          | 0 => none
          | f + 1 => (st.resolve index pos lf).bind fun n' => getLoop st nkey f n' d

/-- `UrkelTree::get` on a root node. -/
def treeGet (fuel : Nat) (st : Store) (root : Node) (nkey : List Nat) :
    Option (Option (List Nat)) :=
  getLoop st nkey fuel root 0

/-- Outcome of the prove descent over the in-memory part of the tree. -/
inductive PStep where
  | dead (ws : List (List Nat))
  | leafHit (key : List Nat) (vindex vpos vsize : Nat) (ws : List (List Nat))
  | hashHit (index pos : Nat) (lf : Bool) (depth : Nat) (ws : List (List Nat))
  | fail

/-- The prove descent of `UrkelTree::prove`: push the untaken sibling's hash at
every internal node, in descent order. -/
def proveDescend (nkey : List Nat) : Node → Nat → List (List Nat) → PStep
  | .empty, _, ws => .dead ws
  | .hashn pos index _, depth, ws => .hashHit index pos (pos % 2 == 1) depth ws
  | .internal _ _ _ l r, depth, ws =>
      if depth = 256 then .fail
      else if has_bit nkey depth then proveDescend nkey r (depth + 1) (ws ++ [l.hashOf])
      else proveDescend nkey l (depth + 1) (ws ++ [r.hashOf])
  | .leaf _ _ _ key _ vi vp vs, _, ws => .leafHit key vi vp vs ws

/-- The prove loop. At a leaf the source always retrieves the value from the
store (`.expect("Missing leaf value")`), even when an in-memory value exists. -/
def proveLoop (st : Store) (nkey : List Nat) :
    Nat → Node → Nat → List (List Nat) → Option UProof
  | fuel, n, depth, ws =>
      match proveDescend nkey n depth ws with
      | .fail => none
      | .dead ws' => some ⟨.deadend, ws', none, none, none⟩
      | .leafHit key vi vp vs ws' =>
          match st.retrieve vi vp vs with
          | some (some val) =>
              if nkey = key then some ⟨.exist, ws', none, none, some val⟩
              else some ⟨.collision, ws', some key, some (sha3 val), none⟩
          | _ => none
      | .hashHit index pos lf d ws' =>
          match fuel with
          | 0 => none
          | f + 1 => (st.resolve index pos lf).bind fun n' => proveLoop st nkey f n' d ws'

/-- `UrkelTree::prove` on a root node. -/
def treeProve (fuel : Nat) (st : Store) (root : Node) (nkey : List Nat) : Option UProof :=
  proveLoop st nkey fuel root 0 []

/-! ### Concrete fixtures used by the claim theorems, counterexamples, witnesses -/

/-- A 32-byte key whose bit 0 (the MSB of byte 0) is 0. -/
def keyLo : List Nat := List.replicate 32 0

/-- A 32-byte key whose bit 0 (the MSB of byte 0) is 1. -/
def keyHi : List Nat := 128 :: List.replicate 31 0

def valA : List Nat := [1]

def valB : List Nat := [2]

/-- A freshly opened store on an empty directory (`Store::open`): empty buffer,
active index 1, position 0, no data files; the random meta-key is taken to be
all zeros. -/
def emptyStore : Store := ⟨[], 1, 0, fun _ => none, List.replicate 32 0, MetaEntry.default0⟩

/-- Insert `(keyLo, valA)` then `(keyHi, valB)` into a fresh tree. -/
def treeOrderAB : Option Node :=
  (treeInsert 1 emptyStore .empty keyLo valA).bind fun t => treeInsert 1 emptyStore t keyHi valB

/-- Insert `(keyHi, valB)` then `(keyLo, valA)` into a fresh tree. -/
def treeOrderBA : Option Node :=
  (treeInsert 1 emptyStore .empty keyHi valB).bind fun t => treeInsert 1 emptyStore t keyLo valA

/-- Insert `(keyHi, valB)` once more on top of `treeOrderAB`. -/
def treeDup : Option Node := treeOrderAB.bind fun t => treeInsert 1 emptyStore t keyHi valB

/-! ### Invariants relating trees to the store -/

/-- The hypothesis under which insert-then-get is provable: any leaf of the
tree that insert's no-op test can accept for `(k, v)` (same key, and stored
hash equal to `sha3_value k v`) must actually hold `v` in memory. Over the
real hash this is exactly collision-freedom of `sha3_value`: a differing
stored value with the same stored hash would be a SHA3-256 collision. -/
def goodLeaves (k v : List Nat) : Node → Prop
  | .internal _ _ _ l r => goodLeaves k v l ∧ goodLeaves k v r
  | .leaf _ _ h key val _ _ _ => key = k → h = sha3_value k v → val = some v
  | _ => True

/-- Hash-binding invariant of a store-backed tree, to resolution depth `fuel`:
every leaf's stored hash commits to its retrievable value (`h_leaf(key,
h_raw(value))` with a `u16`-sized locator), and every hash node's stored hash
matches the node it resolves to. This is the invariant §3 of the spec states
("A leaf's stored `hash` equals `H_leaf(key, H_raw(value))`", hash nodes are
pure references). -/
def GoodTree (st : Store) : Nat → Node → Prop
  | 0, _ => False
  | _ + 1, .empty => True
  | _ + 1, .leaf _ _ h key _ vi vp vs =>
      ∃ bytes, st.retrieve vi vp vs = some (some bytes) ∧ h = sha3_value key bytes ∧ vs < 65536
  | f + 1, .internal _ _ _ l r => GoodTree st f l ∧ GoodTree st f r
  | f + 1, .hashn pos index h =>
      ∃ n, st.resolve index pos (pos % 2 == 1) = some n ∧ n.hashOf = h ∧ GoodTree st f n

/-- Reference fold: combine the witnesses `ws` (shallowest first) below depth
`d` onto the leaf digest, choosing sides by the key's bits. -/
def foldW (k : List Nat) : List (List Nat) → List Nat → Nat → List Nat
  | [], leafh, _ => leafh
  | w :: rest, leafh, d =>
      if has_bit k d then sha3_internal w (foldW k rest leafh (d + 1))
      else sha3_internal (foldW k rest leafh (d + 1)) w

/-! ### Helper lemmas -/

theorem checksum_length (data key : List Nat) : (checksum data key).length = 32 :=
  sha3_length _

theorem foldW_append (k : List Nat) (a b : List (List Nat)) (x : List Nat) :
    ∀ d, foldW k (a ++ b) x d = foldW k a (foldW k b x (d + a.length)) d := by
  induction a with
  | nil => intro d; simp [foldW]
  | cons w rest ih =>
      intro d
      simp only [List.cons_append, foldW, List.length_cons, List.append_eq]
      have h : d + 1 + rest.length = d + (rest.length + 1) := by omega
      rw [ih (d + 1), h]

/-- The verifier's clamped depth decrement is plain truncated subtraction. -/
theorem clamp_eq (d : Nat) : (if 0 < d then d - 1 else d) = d - 1 := by
  rcases Nat.eq_zero_or_pos d with h | h <;> simp [h]

/-- The verifier's reverse fold starting at depth `len - 1` computes `foldW`
from depth 0. -/
theorem verifyFold_eq_foldW (k : List Nat) (ws : List (List Nat)) :
    ∀ x, verifyFold k ws.reverse x (ws.length - 1) = foldW k ws x 0 := by
  induction ws using List.reverseRecOn with
  | nil => intro x; simp [verifyFold, foldW]
  | append_singleton init w ih =>
      intro x
      rw [List.reverse_append]
      simp only [List.reverse_cons, List.reverse_nil, List.nil_append, List.singleton_append,
        List.length_append, List.length_cons, List.length_nil]
      show verifyFold k (w :: init.reverse) x (init.length + 1 - 1) = _
      rw [verifyFold]
      rw [show init.length + 1 - 1 = init.length from rfl, clamp_eq]
      rw [ih]
      rw [foldW_append]
      simp [foldW]

theorem containsNode_self (x : Node) : containsNode x x = true := by
  unfold containsNode; simp

theorem containsNode_internal_left (p i : Nat) (h : List Nat) (l r x : Node)
    (hc : containsNode l x = true) : containsNode (.internal p i h l r) x = true := by
  unfold containsNode
  split
  · rfl
  · simp [hc]

theorem containsNode_internal_right (p i : Nat) (h : List Nat) (l r x : Node)
    (hc : containsNode r x = true) : containsNode (.internal p i h l r) x = true := by
  unfold containsNode
  split
  · rfl
  · simp [hc]

/-- Whatever the built node contains, the rebuilt tree still contains. -/
theorem rebuild_contains_of_contains (nk : List Nat) (th : List Node) :
    ∀ (nr : Node) (d : Nat) (x : Node), containsNode nr x = true →
      containsNode (rebuild nk th nr d) x = true := by
  induction th with
  | nil => intro nr d x h; simpa [rebuild] using h
  | cons n rest ih =>
      intro nr d x h
      simp only [rebuild]
      by_cases hb : has_bit nk (d - 1)
      · rw [if_pos hb]
        exact ih _ _ _ (containsNode_internal_right _ _ _ _ _ _ h)
      · rw [if_neg hb]
        exact ih _ _ _ (containsNode_internal_left _ _ _ _ _ _ h)

/-- Every node pushed on the `to_hash` stack is contained in the rebuilt tree. -/
theorem rebuild_contains_mem (nk : List Nat) (th : List Node) :
    ∀ (nr : Node) (d : Nat) (x : Node), x ∈ th →
      containsNode (rebuild nk th nr d) x = true := by
  induction th with
  | nil => intro nr d x h; cases h
  | cons n rest ih =>
      intro nr d x h
      rcases List.mem_cons.mp h with rfl | hmem
      · simp only [rebuild]
        by_cases hb : has_bit nk (d - 1)
        · rw [if_pos hb]
          exact rebuild_contains_of_contains _ _ _ _ _
            (containsNode_internal_left _ _ _ _ _ _ (containsNode_self x))
        · rw [if_neg hb]
          exact rebuild_contains_of_contains _ _ _ _ _
            (containsNode_internal_right _ _ _ _ _ _ (containsNode_self x))
      · simp only [rebuild]
        by_cases hb : has_bit nk (d - 1)
        · rw [if_pos hb]; exact ih _ _ _ hmem
        · rw [if_neg hb]; exact ih _ _ _ hmem

/-- Descending by the bits of `nk` through the rebuilt spine reaches the node
the rebuild started from. -/
theorem getDescend_rebuild (nk : List Nat) (th : List Node) :
    ∀ (nr : Node) (d : Nat), th.length ≤ d →
      getDescend nk (rebuild nk th nr d) (d - th.length) = getDescend nk nr d := by
  induction th with
  | nil => intro nr d h; simp [rebuild]
  | cons n rest ih =>
      intro nr d h
      simp only [rebuild, List.length_cons]
      have hd : d - (rest.length + 1) = d - 1 - rest.length := by omega
      have h1 : d - 1 + 1 = d := by
        simp only [List.length_cons] at h; omega
      by_cases hb : has_bit nk (d - 1)
      · rw [if_pos hb, hd, ih _ (d - 1) (by simp only [List.length_cons] at h; omega)]
        simp [getDescend, hb, h1]
      · rw [if_neg hb, hd, ih _ (d - 1) (by simp only [List.length_cons] at h; omega)]
        simp [getDescend, hb, h1]

/-- A successful exact read returns exactly `size` bytes. -/
theorem Store.read_length (st : Store) (i p s : Nat) (bs : List Nat)
    (h : st.read i p s = some (some bs)) : bs.length = s := by
  unfold Store.read at h
  rcases hf : st.files i with _ | content
  · rw [hf] at h; cases h
  · rw [hf] at h
    dsimp only at h
    by_cases hle : p + s ≤ content.length
    · rw [if_pos hle] at h
      simp only [Option.some.injEq] at h
      subst h
      simp only [List.length_take, List.length_drop]
      omega
    · rw [if_neg hle] at h
      simp at h

/-- If the insert descent ends in the no-op ("duplicate") case, the node the
root is reset to is a leaf for `k` that (under `goodLeaves`) carries `v`. -/
theorem insertDescend_noop (k v : List Nat) :
    ∀ (n : Node) (depth : Nat) (acc : List Node) (r : Node),
      insertDescend k (sha3_value k v) n depth acc = .noop r →
      goodLeaves k v n →
      ∃ p i vi vp vs, r = Node.leaf p i (sha3_value k v) k (some v) vi vp vs := by
  intro n
  induction n with
  | empty =>
      intro depth acc r hd _
      simp [insertDescend] at hd
  | hashn pos index hsh =>
      intro depth acc r hd _
      simp [insertDescend] at hd
  | leaf p i hsh key value vi vp vs =>
      intro depth acc r hd hg
      by_cases hk : k = key
      · by_cases hh : sha3_value k v = hsh
        · simp only [insertDescend, if_pos hk, if_pos hh] at hd
          cases hd
          have hg' : key = k → hsh = sha3_value k v → value = some v := hg
          have hval : value = some v := hg' hk.symm hh.symm
          exact ⟨p, i, vi, vp, vs, by rw [hh, hk, hval]⟩
        · simp only [insertDescend, if_pos hk, if_neg hh] at hd
          cases hd
      · simp only [insertDescend, if_neg hk] at hd
        rcases hsc : skipCount k key (8 * max k.length key.length + 1) depth with _ | c
          <;> rw [hsc] at hd <;> cases hd
  | internal p i hsh l r ihl ihr =>
      intro depth acc r' hd hg
      by_cases h256 : depth = 256
      · simp only [insertDescend, if_pos h256] at hd
        cases hd
      · simp only [insertDescend, if_neg h256] at hd
        have hg' : goodLeaves k v l ∧ goodLeaves k v r := hg
        by_cases hb : has_bit k depth
        · rw [if_pos hb] at hd
          exact ihr (depth + 1) (l :: acc) r' hd hg'.2
        · rw [if_neg hb] at hd
          exact ihl (depth + 1) (r :: acc) r' hd hg'.1

/-- The descent only ever pushes onto the incoming stack, one entry per depth
step: the break state and the hash-node stop both satisfy
`to_hash = extra ++ acc` with `extra.length + depth₀ = depth`. -/
theorem insertDescend_stack (k lh : List Nat) :
    ∀ (n : Node) (depth : Nat) (acc : List Node),
      (∀ d th, insertDescend k lh n depth acc = .broke d th →
          ∃ extra, th = extra ++ acc ∧ extra.length + depth = d) ∧
      (∀ idx pos lf d th, insertDescend k lh n depth acc = .hashHit idx pos lf d th →
          ∃ extra, th = extra ++ acc ∧ extra.length + depth = d) := by
  intro n
  induction n with
  | empty =>
      intro depth acc
      constructor
      · intro d th hd
        simp only [insertDescend] at hd
        cases hd
        exact ⟨[], by simp, by simp⟩
      · intro idx pos lf d th hd
        simp [insertDescend] at hd
  | hashn pos index hsh =>
      intro depth acc
      constructor
      · intro d th hd
        simp [insertDescend] at hd
      · intro idx pos' lf d th hd
        simp only [insertDescend] at hd
        cases hd
        exact ⟨[], by simp, by simp⟩
  | leaf p i hsh key value vi vp vs =>
      intro depth acc
      constructor
      · intro d th hd
        by_cases hk : k = key
        · by_cases hh : lh = hsh
          · simp only [insertDescend, if_pos hk, if_pos hh] at hd
            cases hd
          · simp only [insertDescend, if_pos hk, if_neg hh] at hd
            cases hd
            exact ⟨[], by simp, by simp⟩
        · simp only [insertDescend, if_neg hk] at hd
          rcases hsc : skipCount k key (8 * max k.length key.length + 1) depth with _ | c
            <;> rw [hsc] at hd
          · cases hd
          · cases hd
            refine ⟨Node.mkLeaf key value :: List.replicate c Node.empty, rfl, ?_⟩
            simp only [List.length_cons, List.length_replicate]
            omega
      · intro idx pos lf d th hd
        by_cases hk : k = key
        · by_cases hh : lh = hsh
          · simp only [insertDescend, if_pos hk, if_pos hh] at hd
            cases hd
          · simp only [insertDescend, if_pos hk, if_neg hh] at hd
            cases hd
        · simp only [insertDescend, if_neg hk] at hd
          rcases hsc : skipCount k key (8 * max k.length key.length + 1) depth with _ | c
            <;> rw [hsc] at hd <;> cases hd
  | internal p i hsh l r ihl ihr =>
      intro depth acc
      have step : ∀ (sib child : Node),
          (∀ d th, insertDescend k lh child (depth + 1) (sib :: acc) = .broke d th →
              ∃ extra, th = extra ++ (sib :: acc) ∧ extra.length + (depth + 1) = d) →
          (∀ d th, insertDescend k lh child (depth + 1) (sib :: acc) = .broke d th →
              ∃ extra, th = extra ++ acc ∧ extra.length + depth = d) := by
        intro sib child hspec d th hd
        obtain ⟨extra, he, hlen⟩ := hspec d th hd
        refine ⟨extra ++ [sib], ?_, ?_⟩
        · rw [he, List.append_assoc]
          rfl
        · simp only [List.length_append, List.length_cons, List.length_nil]
          omega
      have stepH : ∀ (sib child : Node),
          (∀ idx pos lf d th,
              insertDescend k lh child (depth + 1) (sib :: acc) = .hashHit idx pos lf d th →
              ∃ extra, th = extra ++ (sib :: acc) ∧ extra.length + (depth + 1) = d) →
          (∀ idx pos lf d th,
              insertDescend k lh child (depth + 1) (sib :: acc) = .hashHit idx pos lf d th →
              ∃ extra, th = extra ++ acc ∧ extra.length + depth = d) := by
        intro sib child hspec idx pos lf d th hd
        obtain ⟨extra, he, hlen⟩ := hspec idx pos lf d th hd
        refine ⟨extra ++ [sib], ?_, ?_⟩
        · rw [he, List.append_assoc]
          rfl
        · simp only [List.length_append, List.length_cons, List.length_nil]
          omega
      constructor
      · intro d th hd
        by_cases h256 : depth = 256
        · simp only [insertDescend, if_pos h256] at hd
          cases hd
        · simp only [insertDescend, if_neg h256] at hd
          by_cases hb : has_bit k depth
          · rw [if_pos hb] at hd
            exact step l r (ihr (depth + 1) (l :: acc)).1 d th hd
          · rw [if_neg hb] at hd
            exact step r l (ihl (depth + 1) (r :: acc)).1 d th hd
      · intro idx pos lf d th hd
        by_cases h256 : depth = 256
        · simp only [insertDescend, if_pos h256] at hd
          cases hd
        · simp only [insertDescend, if_neg h256] at hd
          by_cases hb : has_bit k depth
          · rw [if_pos hb] at hd
            exact stepH l r (ihr (depth + 1) (l :: acc)).2 idx pos lf d th hd
          · rw [if_neg hb] at hd
            exact stepH r l (ihl (depth + 1) (r :: acc)).2 idx pos lf d th hd

/-- Every node materialised by `Node::decode` satisfies `goodLeaves` for a pair
`(k, v)` whose leaf hash is non-zero, because decoded leaves carry a zeroed
stored hash. -/
theorem Node.decode_goodLeaves (k v : List Nat) (hz : sha3_value k v ≠ zeroDigest)
    (bs : List Nat) (lf : Bool) (n : Node) (h : Node.decode bs lf = some n) :
    goodLeaves k v n := by
  cases lf
  · dsimp only [Node.decode] at h
    split at h
    · cases h
    · split at h
      · cases h
      · simp only [Option.some.injEq] at h
        subst h
        refine ⟨?_, ?_⟩ <;> split <;> trivial
  · dsimp only [Node.decode] at h
    split at h
    · cases h
    · split at h
      · cases h
      · split at h
        · cases h
        · simp only [Option.some.injEq] at h
          subst h
          intro _ hhash
          exact absurd hhash.symm hz

/-- Same property, lifted through `Store::resolve`. -/
theorem Store.resolve_goodLeaves (k v : List Nat) (hz : sha3_value k v ≠ zeroDigest)
    (st : Store) (i p : Nat) (lf : Bool) (n : Node)
    (h : st.resolve i p lf = some n) : goodLeaves k v n := by
  unfold Store.resolve at h
  rcases hr : st.read i (p / 2) (if lf then 40 else 76) with _ | ob
  · rw [hr] at h
    cases h
  · rw [hr] at h
    rcases ob with _ | bits
    · dsimp only at h
      cases h
    · dsimp only at h
      exact Node.decode_goodLeaves k v hz bits lf n h

/-- Invariant of the whole insert loop: a successful loop either ends in the
no-op case with a `(k, v)` leaf, or breaks with a stack that extends the
incoming one by exactly `depth - depth₀` nodes. -/
theorem insertLoop_spec (st : Store) (k v : List Nat) (hz : sha3_value k v ≠ zeroDigest) :
    ∀ (F : Nat) (n : Node) (depth : Nat) (acc : List Node) (res : Node ⊕ Nat × List Node),
      insertLoop st k (sha3_value k v) F n depth acc = some res →
      goodLeaves k v n →
      (∀ r, res = .inl r →
          ∃ p i vi vp vs, r = Node.leaf p i (sha3_value k v) k (some v) vi vp vs) ∧
      (∀ d th, res = .inr (d, th) →
          ∃ extra, th = extra ++ acc ∧ extra.length + depth = d) := by
  intro F
  induction F with
  | zero =>
      intro n depth acc res hl hg
      unfold insertLoop at hl
      cases hdd : insertDescend k (sha3_value k v) n depth acc <;> rw [hdd] at hl
      case noop r =>
        dsimp only at hl
        simp only [Option.some.injEq] at hl
        subst hl
        constructor
        · intro r' hr
          simp only [Sum.inl.injEq] at hr
          subst hr
          exact insertDescend_noop k v n depth acc r hdd hg
        · intro d th hr
          simp at hr
      case broke d1 th1 =>
        dsimp only at hl
        simp only [Option.some.injEq] at hl
        subst hl
        constructor
        · intro r hr
          simp at hr
        · intro d th hr
          simp only [Sum.inr.injEq, Prod.mk.injEq] at hr
          obtain ⟨rfl, rfl⟩ := hr
          exact (insertDescend_stack k (sha3_value k v) n depth acc).1 d1 th1 hdd
      case hashHit idx pos lf d1 th1 =>
        dsimp only at hl
        cases hl
      case fail =>
        dsimp only at hl
        cases hl
  | succ f ih =>
      intro n depth acc res hl hg
      unfold insertLoop at hl
      cases hdd : insertDescend k (sha3_value k v) n depth acc <;> rw [hdd] at hl
      case noop r =>
        dsimp only at hl
        simp only [Option.some.injEq] at hl
        subst hl
        constructor
        · intro r' hr
          simp only [Sum.inl.injEq] at hr
          subst hr
          exact insertDescend_noop k v n depth acc r hdd hg
        · intro d th hr
          simp at hr
      case broke d1 th1 =>
        dsimp only at hl
        simp only [Option.some.injEq] at hl
        subst hl
        constructor
        · intro r hr
          simp at hr
        · intro d th hr
          simp only [Sum.inr.injEq, Prod.mk.injEq] at hr
          obtain ⟨rfl, rfl⟩ := hr
          exact (insertDescend_stack k (sha3_value k v) n depth acc).1 d1 th1 hdd
      case hashHit idx pos lf d1 th1 =>
        dsimp only at hl
        rcases hres : st.resolve idx pos lf with _ | n' <;> rw [hres] at hl
        · cases hl
        · simp only [Option.bind] at hl
          have hg' := Store.resolve_goodLeaves k v hz st idx pos lf n' hres
          obtain ⟨spec1, spec2⟩ := ih n' d1 th1 res hl hg'
          obtain ⟨extra0, hth0, hlen0⟩ :=
            (insertDescend_stack k (sha3_value k v) n depth acc).2 idx pos lf d1 th1 hdd
          constructor
          · exact spec1
          · intro d th hr
            obtain ⟨extra2, hth2, hlen2⟩ := spec2 d th hr
            refine ⟨extra2 ++ extra0, ?_, ?_⟩
            · rw [hth2, hth0, List.append_assoc]
            · simp only [List.length_append]
              omega
      case fail =>
        dsimp only at hl
        cases hl

/-- C1: For every 32-byte key `k` and value `v`, after `insert(k, v)` on any
tree, `get(k)` returns `v`. The hypotheses: the insert ran to completion
(`hins`), the fresh leaf hash is not the zero sentinel (`hz`), and no leaf of
the starting tree passes insert's duplicate test for `(k, v)` while storing a
different value (`hg`) — over the real hash, the failure of either hypothesis
would exhibit a SHA3-256 collision or preimage of zero. After the insert, the
whole path to `k` is materialised in memory, so `get` needs no store fuel. -/
theorem C1_insert_then_get (F : Nat) (st : Store) (t : Node) (k v : List Nat) (t' : Node)
    (hz : sha3_value k v ≠ zeroDigest)
    (hg : goodLeaves k v t)
    (hins : treeInsert F st t k v = some t') :
    treeGet 0 st t' k = some (some v) := by
  unfold treeInsert at hins
  rcases hres : insertLoop st k (sha3_value k v) F t 0 [] with _ | res <;> rw [hres] at hins
  · simp at hins
  · obtain ⟨spec1, spec2⟩ := insertLoop_spec st k v hz F t 0 [] res hres hg
    rcases res with r | ⟨d, th⟩
    · obtain ⟨p, i, vi, vp, vs, rfl⟩ := spec1 r rfl
      simp only [Option.map_some', Option.some.injEq] at hins
      subst hins
      simp [treeGet, getLoop, getDescend]
    · obtain ⟨extra, hth, hlen⟩ := spec2 d th rfl
      simp only [Option.map_some', Option.some.injEq] at hins
      subst hins
      simp only [List.append_nil] at hth
      have hthd : th.length = d := by rw [hth]; omega
      have hgd := getDescend_rebuild k th (.leaf 0 0 (sha3_value k v) k (some v) 0 0 0) d
        (le_of_eq hthd)
      rw [hthd, Nat.sub_self] at hgd
      unfold treeGet getLoop
      rw [hgd]
      simp [getDescend]

/-- C1 witness: inserting `(keyLo, valA)` into a fresh tree and reading it back. -/
theorem C1_witness :
    treeGet 0 emptyStore (Node.leaf 0 0 (sha3_value keyLo valA) keyLo (some valA) 0 0 0) keyLo
      = some (some valA) :=
  C1_insert_then_get 1 emptyStore .empty keyLo valA _ (by decide) trivial (by decide)

/-- C2: the claim asserts insertion-order independence of `get_root`, but the
code violates it: `Node::leaf` zeroes the displaced leaf's stored hash during
insert, so the leaf inserted first contributes a zero digest to the root. Both
insertion orders of the same two pairs succeed yet produce different roots. -/
theorem C2_order_dependence :
    treeOrderAB.isSome = true ∧ treeOrderBA.isSome = true ∧
      treeOrderAB.map Node.hashOf ≠ treeOrderBA.map Node.hashOf := by
  decide

/-- C5: the claim says re-inserting `(k, v)` right after `insert(k, v)` leaves
the root unchanged. In the code the no-op branch assigns the *descended* node
(the bare leaf) to `self.root`, so on a two-key tree the whole trie is
replaced by that leaf and the root hash changes to the leaf hash. -/
theorem C5_duplicate_insert_replaces_root :
    treeDup = some (Node.leaf 0 0 (sha3_value keyHi valB) keyHi (some valB) 0 0 0) ∧
      treeDup.map Node.hashOf = some (sha3_value keyHi valB) ∧
      treeDup.map Node.hashOf ≠ treeOrderAB.map Node.hashOf := by
  decide

/-- The store state right after `commit(Some(root))` on a fresh store. -/
def stCommit : Store := Store.commit emptyStore (some Node.empty)

/-- C4: after a successful store commit the meta-record for the root is the
last record in the active file and the buffer is empty, but the claim's last
conjunct fails: the code resets the in-memory position to 0, not to the new
on-disk tail (here 72 = 36 padding + 36 record bytes just flushed). -/
theorem C4_commit_eval :
    stCommit.buffer = [] ∧
    stCommit.files 1 = some (MetaEntry.encode stCommit.state 0 emptyStore.key) ∧
    ((stCommit.files 1).getD []).length = 72 ∧
    stCommit.pos = 0 ∧
    stCommit.pos ≠ ((stCommit.files 1).getD []).length := by
  decide

/-- C7: the claim (and the spec's table) says a Deadend proof with absent key,
value-hash and value passes `is_sane`; the code returns `false` for every
Deadend proof, so `verify` rejects it with `Unknown` and its `H_zero` branch
is unreachable. -/
theorem C7_deadend_rejected :
    UProof.new.key = none ∧ UProof.new.hash = none ∧ UProof.new.value = none ∧
    UProof.is_sane UProof.new 256 = false ∧
    UProof.verify UProof.new zeroDigest zeroDigest 256 = some (.err "Unknown") := by
  decide

/-- C6 counterexample: the literal round-trip `decode(encode(m, pos, key), key)`
fails for any `pos`, because `encode` prepends at least one padding byte and
`decode` reads the magic from offset 0. At `m = default, pos = 0` the padding
is a full 36-byte block of zeros and decode rejects the magic. -/
theorem C6_counterexample :
    MetaEntry.decode (MetaEntry.encode MetaEntry.default0 0 zeroDigest) zeroDigest = none := by
  decide

/-- A store whose only data file holds the single value byte `99` at offset 0. -/
def storeOneByte : Store :=
  ⟨[], 1, 0, (fun i => if i = 1 then some [99] else none), List.replicate 32 0,
    MetaEntry.default0⟩

/-- A committed-style tree whose root is a single leaf with a store-backed
value locator (file 1, offset 0, 1 byte). -/
def leafOnlyTree : Node := .leaf 7 1 (sha3_value keyLo [99]) keyLo none 1 0 1

/-- The Exists proof that `prove(keyLo)` produces on `leafOnlyTree`: no
witnesses at all. -/
def existsNoWitness : UProof := ⟨.exist, [], none, none, some [99]⟩

/-- C3 counterexample: on a tree whose root is a single leaf, `prove`
returns an Exists proof with an empty witness list, and `verify` hits the
`len(witness) - 1` underflow (modelled by `none`) instead of succeeding. -/
theorem C3_counterexample :
    treeProve 1 storeOneByte leafOnlyTree keyLo = some existsNoWitness ∧
    existsNoWitness.proof_type = PType.exist ∧
    UProof.verify existsNoWitness (Node.hashOf leafOnlyTree) keyLo 256 = none := by
  decide

/-- A well-formed Collision proof with zero witnesses whose key is `keyLo`. -/
def collisionSelf : UProof := ⟨.collision, [], some keyLo, some zeroDigest, none⟩

/-- C10 counterexample: a sane zero-witness proof whose verification does
*not* underflow — a Collision proof queried with its own key exits earlier
with `Same Key`, before the `len(witness) - 1` subtraction. -/
theorem C10_counterexample :
    UProof.is_sane collisionSelf 256 = true ∧
    collisionSelf.node_hashes = [] ∧
    UProof.verify collisionSelf zeroDigest keyLo 256 = some (.err "Same Key") := by
  decide

/-- C10 (amended): `verify` computes `depth = len(witness) - 1` on an unsigned
integer before the fold, so for every proof that passes `is_sane` with zero
witnesses, verification either panics from the underflow (`none`) or — only
for a Collision proof whose key equals the query key — fails earlier with
`Same Key`. -/
theorem C10_zero_witness_underflow (p : UProof) (r k : List Nat)
    (hs : p.is_sane 256 = true) (hw : p.node_hashes = []) :
    p.verify r k 256 = none ∨
      (p.proof_type = PType.collision ∧ p.key = some k ∧
        p.verify r k 256 = some (.err "Same Key")) := by
  cases hpt : p.proof_type with
  | deadend =>
      rw [UProof.is_sane, hpt] at hs
      simp at hs
  | exist =>
      left
      rcases hv : p.value with _ | v
      · rw [UProof.is_sane, hpt] at hs
        simp [hv] at hs
      · simp [UProof.verify, hs, hpt, hv, hw]
  | collision =>
      by_cases hk : p.key = some k
      · right
        refine ⟨rfl, hk, ?_⟩
        simp [UProof.verify, hs, hpt, hk]
      · left
        rcases hkk : p.key with _ | kk
        · rw [UProof.is_sane, hpt] at hs
          simp [hkk] at hs
        · rcases hhh : p.hash with _ | hh
          · rw [UProof.is_sane, hpt] at hs
            simp [hhh] at hs
          · rw [hkk] at hk
            simp [UProof.verify, hs, hpt, hkk, hhh, hw, hk]

/-- An Exists proof with zero witnesses (as produced on a single-leaf root). -/
def existsEmptyW : UProof := ⟨.exist, [], none, none, some [5]⟩

/-- C10 witness: instantiating the amended statement on a sane zero-witness
Exists proof. -/
theorem C10_witness :
    UProof.verify existsEmptyW zeroDigest keyHi 256 = none ∨
      (existsEmptyW.proof_type = PType.collision ∧ existsEmptyW.key = some keyHi ∧
        UProof.verify existsEmptyW zeroDigest keyHi 256 = some (.err "Same Key")) :=
  C10_zero_witness_underflow existsEmptyW zeroDigest keyHi (by decide) rfl

/-- C8: node decode fails exactly on a parity-bit violation — a 40-byte leaf
record decodes iff the stored tagged `vindex` is odd, and a 76-byte internal
record decodes iff the stored left-child index is even. -/
theorem C8_decode_parity :
    (∀ bs : List Nat, bs.length = 40 →
        ((Node.decode bs true).isSome = true ↔ readU16 bs % 2 = 1)) ∧
    (∀ bs : List Nat, bs.length = 76 →
        ((Node.decode bs false).isSome = true ↔ readU16 bs % 2 = 0)) := by
  constructor
  · intro bs h40
    dsimp only [Node.decode]
    rw [if_neg (by omega)]
    by_cases hp : readU16 bs % 2 ≠ 1
    · rw [if_pos hp]
      simp [hp]
    · rw [if_neg hp, if_neg (by simp [h40])]
      simp at hp
      simp [hp]
  · intro bs h76
    dsimp only [Node.decode]
    rw [if_neg (by omega)]
    by_cases hp : readU16 bs % 2 ≠ 0
    · rw [if_pos hp]
      simp [hp]
    · rw [if_neg hp]
      simp at hp
      simp [hp]

/-- A valid 40-byte leaf record: tagged vindex 3 (= vindex 1, low bit set),
vpos 0, vsize 1, and a 32-byte key of `0xAA` bytes. -/
def goodLeafRecord : List Nat := writeU16 3 ++ writeU32 0 ++ writeU16 1 ++ List.replicate 32 170

/-- C8 witness: the good record decodes; flipping the parity bit makes the
same-length record fail. -/
theorem C8_witness :
    (Node.decode goodLeafRecord true).isSome = true ∧
    (Node.decode (writeU16 2 ++ writeU32 0 ++ writeU16 1 ++ List.replicate 32 170) true).isSome
      ≠ true := by
  constructor
  · exact (C8_decode_parity.1 goodLeafRecord (by decide)).mpr (by decide)
  · intro h
    have := (C8_decode_parity.1 _ (by decide)).mp h
    exact absurd this (by decide)

/-- C9: when insert descends to a disk-resolved leaf (in-memory value `none`)
with a different key, it rebuilds that leaf via `Node::leaf`, which zeroes its
position fields and value locator; the rebuilt tree contains a leaf with no
value and a zeroed locator, and encoding that leaf (as a later commit would)
fails the `"Leaf has no value!"` assertion. -/
theorem C9_displaced_disk_leaf (F : Nat) (st : Store) (hpos hidx : Nat) (hh : List Nat)
    (okey : List Nat) (vi vp vs : Nat) (k2 v2 : List Nat) (t' : Node)
    (hres : st.resolve hidx hpos (hpos % 2 == 1) =
        some (.leaf 0 0 zeroDigest okey none vi vp vs))
    (hne : k2 ≠ okey)
    (hins : treeInsert F st (.hashn hpos hidx hh) k2 v2 = some t') :
    containsNode t' (Node.mkLeaf okey none) = true ∧
      Node.encode (Node.mkLeaf okey none) = none := by
  refine ⟨?_, rfl⟩
  unfold treeInsert at hins
  rcases F with _ | f
  · unfold insertLoop at hins
    dsimp only [insertDescend] at hins
    simp at hins
  · unfold insertLoop at hins
    dsimp only [insertDescend] at hins
    rw [hres] at hins
    simp only [Option.bind] at hins
    unfold insertLoop at hins
    dsimp only [insertDescend] at hins
    rw [if_neg hne] at hins
    rcases hsc : skipCount k2 okey (8 * max k2.length okey.length + 1) 0 with _ | c
      <;> rw [hsc] at hins
    · simp at hins
    · simp only [Option.map_some', Option.some.injEq] at hins
      subst hins
      exact rebuild_contains_mem k2 _ _ _ _ (List.mem_cons_self _ _)

/-- A store whose only data file holds exactly one persisted leaf record. -/
def storeDiskLeaf : Store :=
  ⟨[], 1, 0, (fun i => if i = 1 then some goodLeafRecord else none), List.replicate 32 0,
    MetaEntry.default0⟩

/-- The tree produced by inserting `(keyLo, valA)` on a hash-node root that
resolves to the persisted `0xAA...` leaf. -/
def treeAfterDisplace : Node :=
  .internal 0 0 zeroDigest (.leaf 0 0 (sha3_value keyLo valA) keyLo (some valA) 0 0 0)
    (Node.mkLeaf (List.replicate 32 170) none)

/-- C9 witness: the concrete displaced disk leaf is a valueless zero-locator
copy inside the rebuilt tree, and its encoding fails. -/
theorem C9_witness :
    containsNode treeAfterDisplace (Node.mkLeaf (List.replicate 32 170) none) = true ∧
      Node.encode (Node.mkLeaf (List.replicate 32 170) none) = none :=
  C9_displaced_disk_leaf 2 storeDiskLeaf 1 1 zeroDigest (List.replicate 32 170) 1 0 1
    keyLo valA treeAfterDisplace (by decide) (by decide) (by decide)

/-- The prove descent on a `GoodTree`: if it reaches a leaf, the appended
witnesses fold the leaf's bound hash back into the subtree's hash; if it
stops at a hash node, the same holds for the resolved node, with strictly
smaller `GoodTree` fuel. -/
theorem proveDescend_spec (st : Store) (k : List Nat) :
    ∀ (n : Node) (G : Nat) (d : Nat) (ws : List (List Nat)),
      GoodTree st G n →
      (∀ key vi vp vs ws', proveDescend k n d ws = .leafHit key vi vp vs ws' →
          ∃ extra bytes, ws' = ws ++ extra ∧ st.retrieve vi vp vs = some (some bytes) ∧
            vs < 65536 ∧ bytes.length = vs ∧
            Node.hashOf n = foldW k extra (sha3_value key bytes) d) ∧
      (∀ idx pos lf d' ws', proveDescend k n d ws = .hashHit idx pos lf d' ws' →
          ∃ extra n' G', ws' = ws ++ extra ∧ d' = d + extra.length ∧
            st.resolve idx pos lf = some n' ∧ G' < G ∧ GoodTree st G' n' ∧
            Node.hashOf n = foldW k extra (Node.hashOf n') d) := by
  intro n
  induction n with
  | empty =>
      intro G d ws hG
      constructor
      · intro key vi vp vs ws' hd
        simp [proveDescend] at hd
      · intro idx pos lf d' ws' hd
        simp [proveDescend] at hd
  | hashn pos index hsh =>
      intro G d ws hG
      rcases G with _ | g
      · exact absurd hG (by simp [GoodTree])
      · obtain ⟨n', hres, hhash, hGn'⟩ := hG
        constructor
        · intro key vi vp vs ws' hd
          simp [proveDescend] at hd
        · intro idx pos' lf d' ws' hd
          simp only [proveDescend] at hd
          cases hd
          refine ⟨[], n', g, by simp, by simp, hres, Nat.lt_succ_self g, hGn', ?_⟩
          exact hhash.symm
  | leaf p i hsh key value vi vp vs =>
      intro G d ws hG
      rcases G with _ | g
      · exact absurd hG (by simp [GoodTree])
      · obtain ⟨bytes, hret, hh, hvs⟩ := hG
        constructor
        · intro key' vi' vp' vs' ws' hd
          simp only [proveDescend] at hd
          cases hd
          exact ⟨[], bytes, by simp, hret, hvs, Store.read_length st _ _ _ _ hret, hh⟩
        · intro idx pos lf d' ws' hd
          simp [proveDescend] at hd
  | internal p i hsh l r ihl ihr =>
      intro G d ws hG
      rcases G with _ | g
      · exact absurd hG (by simp [GoodTree])
      · obtain ⟨hGl, hGr⟩ := hG
        constructor
        · intro key vi vp vs ws' hd
          by_cases h256 : d = 256
          · simp only [proveDescend, if_pos h256] at hd
            cases hd
          · simp only [proveDescend, if_neg h256] at hd
            by_cases hb : has_bit k d
            · rw [if_pos hb] at hd
              obtain ⟨extra, bytes, hws, hret, hvs, hlen, hfold⟩ :=
                (ihr g (d + 1) (ws ++ [l.hashOf]) hGr).1 key vi vp vs ws' hd
              refine ⟨l.hashOf :: extra, bytes, ?_, hret, hvs, hlen, ?_⟩
              · rw [hws, List.append_assoc]
                rfl
              · simp only [foldW, hb, if_true]
                rw [← hfold]
                rfl
            · rw [if_neg hb] at hd
              obtain ⟨extra, bytes, hws, hret, hvs, hlen, hfold⟩ :=
                (ihl g (d + 1) (ws ++ [r.hashOf]) hGl).1 key vi vp vs ws' hd
              refine ⟨r.hashOf :: extra, bytes, ?_, hret, hvs, hlen, ?_⟩
              · rw [hws, List.append_assoc]
                rfl
              · simp only [foldW, hb, if_false]
                rw [← hfold]
                rfl
        · intro idx pos lf d' ws' hd
          by_cases h256 : d = 256
          · simp only [proveDescend, if_pos h256] at hd
            cases hd
          · simp only [proveDescend, if_neg h256] at hd
            by_cases hb : has_bit k d
            · rw [if_pos hb] at hd
              obtain ⟨extra, n', G', hws, hd', hres, hlt, hGn', hfold⟩ :=
                (ihr g (d + 1) (ws ++ [l.hashOf]) hGr).2 idx pos lf d' ws' hd
              refine ⟨l.hashOf :: extra, n', G', ?_, ?_, hres, by omega, hGn', ?_⟩
              · rw [hws, List.append_assoc]
                rfl
              · simp only [List.length_cons]
                omega
              · simp only [foldW, hb, if_true]
                rw [← hfold]
                rfl
            · rw [if_neg hb] at hd
              obtain ⟨extra, n', G', hws, hd', hres, hlt, hGn', hfold⟩ :=
                (ihl g (d + 1) (ws ++ [r.hashOf]) hGl).2 idx pos lf d' ws' hd
              refine ⟨r.hashOf :: extra, n', G', ?_, ?_, hres, by omega, hGn', ?_⟩
              · rw [hws, List.append_assoc]
                rfl
              · simp only [List.length_cons]
                omega
              · simp only [foldW, hb, if_false]
                rw [← hfold]
                rfl

/-- The whole prove loop on a `GoodTree`: a successful Exists proof extends the
incoming witness list by a fold that reconstructs the subtree's hash from
`sha3_value k value`. -/
theorem proveLoop_spec (st : Store) (k : List Nat) :
    ∀ (G : Nat) (F : Nat) (n : Node) (d : Nat) (ws : List (List Nat)) (p : UProof),
      proveLoop st k F n d ws = some p → GoodTree st G n → p.proof_type = .exist →
      ∃ extra bytes, p.node_hashes = ws ++ extra ∧ p.value = some bytes ∧
        p.key = none ∧ p.hash = none ∧ bytes.length < 65536 ∧
        Node.hashOf n = foldW k extra (sha3_value k bytes) d := by
  intro G
  induction G using Nat.strong_induction_on with
  | _ G ih =>
      intro F n d ws p hl hG hty
      unfold proveLoop at hl
      cases hdd : proveDescend k n d ws <;> rw [hdd] at hl
      case dead ws' =>
        dsimp only at hl
        simp only [Option.some.injEq] at hl
        subst hl
        simp at hty
      case leafHit key vi vp vs ws' =>
        dsimp only at hl
        obtain ⟨extra, bytes, hws, hret, hvs, hlen, hfold⟩ :=
          (proveDescend_spec st k n G d ws hG).1 key vi vp vs ws' hdd
        rw [hret] at hl
        dsimp only at hl
        by_cases hk : k = key
        · rw [if_pos hk] at hl
          simp only [Option.some.injEq] at hl
          subst hl
          exact ⟨extra, bytes, hws, rfl, rfl, rfl, by omega, by rw [hfold, hk]⟩
        · rw [if_neg hk] at hl
          simp only [Option.some.injEq] at hl
          subst hl
          simp at hty
      case hashHit idx pos lf d' ws' =>
        dsimp only at hl
        obtain ⟨extra, n', G', hws, hd', hres, hlt, hGn', hfold⟩ :=
          (proveDescend_spec st k n G d ws hG).2 idx pos lf d' ws' hdd
        rcases F with _ | f
        · cases hl
        · rw [hres] at hl
          simp only [Option.bind] at hl
          obtain ⟨extra2, bytes, hws2, hval, hkey, hhash, hblen, hfold2⟩ :=
            ih G' hlt f n' d' ws' p hl hGn' hty
          refine ⟨extra ++ extra2, bytes, ?_, hval, hkey, hhash, hblen, ?_⟩
          · rw [hws2, hws, List.append_assoc]
          · rw [foldW_append, hfold]
            congr 1
            rw [hfold2, hd']
      case fail =>
        dsimp only at hl
        cases hl

/-- C3 (amended): on a store-backed tree satisfying the hash-binding invariant
(`GoodTree` — each stored leaf hash is `H_leaf` of its key and retrievable
value, each hash node's hash matches its resolved record; the code itself
violates this by zeroing leaf hashes), every Exists proof with at least one
witness verifies against `get_root` and returns the stored value. The two
hypotheses added to the claim are forced by the counterexample and by the C2
zeroed-hash bug. -/
theorem C3_prove_verify_roundtrip (F G : Nat) (st : Store) (t : Node) (k : List Nat)
    (p : UProof)
    (hG : GoodTree st G t)
    (hp : treeProve F st t k = some p)
    (hty : p.proof_type = .exist)
    (hw : p.node_hashes ≠ []) :
    ∃ v, p.value = some v ∧ p.verify (Node.hashOf t) k 256 = some (.ok v) := by
  obtain ⟨extra, bytes, hws, hval, hkey, hhash, hblen, hfold⟩ :=
    proveLoop_spec st k G F t 0 [] p hp hG hty
  simp only [List.nil_append] at hws
  refine ⟨bytes, hval, ?_⟩
  have hsane : p.is_sane 256 = true := by
    rw [UProof.is_sane, hty]
    simp [hkey, hhash, hval]
    omega
  have hfoldv : verifyFold k p.node_hashes.reverse (sha3_value k bytes)
      (p.node_hashes.length - 1) = Node.hashOf t := by
    rw [verifyFold_eq_foldW, hws, ← hfold]
  simp [UProof.verify, hsane, hty, hval, hw, hfoldv]

/-- A store whose only data file holds the two value bytes `[10, 20]`. -/
def storeTwoValues : Store :=
  ⟨[], 1, 0, (fun i => if i = 1 then some [10, 20] else none), List.replicate 32 0,
    MetaEntry.default0⟩

/-- A two-leaf tree over `storeTwoValues` satisfying the hash-binding
invariant: both leaves store `H_leaf(key, H_raw(value))` and point at their
value bytes in file 1. -/
def twoLeafTree : Node :=
  .internal 0 0 zeroDigest
    (.leaf 0 0 (sha3_value keyLo [10]) keyLo none 1 0 1)
    (.leaf 0 0 (sha3_value keyHi [20]) keyHi none 1 1 1)

/-- The Exists proof `prove(keyHi)` produces on `twoLeafTree`: one witness
(the left leaf's hash) and the retrieved value `[20]`. -/
def existsOneWitness : UProof :=
  ⟨.exist, [sha3_value keyLo [10]], none, none, some [20]⟩

/-- C3 witness: on the concrete two-leaf tree the Exists proof verifies
against the root and returns the stored value. -/
theorem C3_witness :
    existsOneWitness.value = some [20] ∧
      UProof.verify existsOneWitness (Node.hashOf twoLeafTree) keyHi 256 = some (.ok [20]) := by
  have hG : GoodTree storeTwoValues 2 twoLeafTree :=
    ⟨⟨[10], by decide, rfl, by decide⟩, ⟨[20], by decide, rfl, by decide⟩⟩
  obtain ⟨v, hv, hver⟩ :=
    C3_prove_verify_roundtrip 1 2 storeTwoValues twoLeafTree keyHi existsOneWitness
      hG (by decide) (by decide) (by decide)
  have hv20 : v = [20] := by
    have : some [20] = some v := hv
    cases this
    rfl
  subst hv20
  exact ⟨hv, hver⟩

theorem drop_replicate_append (p : Nat) (rest : List Nat) :
    (List.replicate p 0 ++ rest).drop p = rest := by
  have := List.drop_left (List.replicate p 0) rest
  rwa [List.length_replicate] at this

/-- C6 (amended): the meta round-trip holds once encode's padding is stripped
before decoding (the literal composition fails — see the counterexample — and
`root_pos < 2^31` keeps the tagged `u32` from wrapping): decode recovers every
field of `m`, and the padding salts the record to start at a file offset that
is a multiple of `META_SIZE = 36`. -/
theorem C6_meta_roundtrip (m : MetaEntry) (pos : Nat) (key : List Nat)
    (h1 : m.meta_index < 65536) (h2 : m.meta_pos < 4294967296)
    (h3 : m.root_index < 65536) (h4 : m.root_pos < 2147483648) :
    MetaEntry.decode ((m.encode pos key).drop (36 - pos % 36)) key = some m ∧
    (pos + (36 - pos % 36)) % 36 = 0 := by
  obtain ⟨mi, mp, ri, rp, rl⟩ := m
  dsimp only at h1 h2 h3 h4
  refine ⟨?_, by omega⟩
  unfold MetaEntry.encode
  dsimp only
  rw [List.append_assoc, drop_replicate_append]
  simp only [writeU16, writeU32, META_MAGIC, List.cons_append, List.nil_append,
    List.append_assoc]
  unfold MetaEntry.decode
  simp only [List.length_cons, List.length_take, checksum_length, List.take_succ_cons,
    List.take_zero, List.drop_succ_cons, List.drop_zero, readU16, readU32]
  rw [if_neg (by omega), if_neg (by decide), if_neg (by simp [List.take_take])]
  simp only [Option.some.injEq, MetaEntry.mk.injEq]
  cases rl
  · norm_num
    omega
  · norm_num
    omega

/-- A sample meta entry with all fields distinct and a leaf root. -/
def metaW : MetaEntry := ⟨1, 2, 3, 4, true⟩

/-- C6 witness: the amended round-trip at `pos = 5` (padding 31 bytes). -/
theorem C6_witness :
    MetaEntry.decode ((MetaEntry.encode metaW 5 zeroDigest).drop (36 - 5 % 36)) zeroDigest
      = some metaW ∧ (5 + (36 - 5 % 36)) % 36 = 0 :=
  C6_meta_roundtrip metaW 5 zeroDigest (by decide) (by decide) (by decide) (by decide)
